import Mathlib

/-!
Verification of the autofram supervision and work-cycle core.

Shallow embedding of `src/autofram/runner.py`, `src/autofram/watcher.py`,
`src/autofram/tools.py` and `src/autofram/contracts.py`.  Python strings
are modelled as `List Char` (a Python `str` is a sequence of code points);
filesystem and LLM interactions are modelled as explicit inputs: the
contents a read would return are parameters, and the effects a cycle or
tick performs are returned as fields of a result structure.
-/

namespace Autofram

/-- Model of a Python `str`: a list of code points. -/
abbrev Chars := List Char

/-- Python `s.startswith(pre)` on the `List Char` model. -/
def charsStartWith (s pre : Chars) : Bool :=
  match s, pre with
  | _, [] => true
  | [], _ :: _ => false
  | c :: cs, p :: ps => c = p && charsStartWith cs ps

/-- Python `\s` (ASCII range): the whitespace characters recognised by
`str.strip` and the `\s` regex class. -/
def pySpace (c : Char) : Bool :=
  c = ' ' || c = '\t' || c = '\n' || c = '\r' || c = '\x0B' || c = '\x0C'

/-- Python `s.strip()`: drop leading and trailing whitespace. -/
def pyStrip (s : Chars) : Chars :=
  ((s.dropWhile pySpace).reverse.dropWhile pySpace).reverse

/-- Python `s.split("\n")`: split at every newline; never returns the
empty list (splitting the empty string yields one empty field). -/
def splitNl : Chars → List Chars
  | [] => [[]]
  | c :: cs =>
    match splitNl cs with
    | [] => [[]]
    | l :: ls => if c = '\n' then [] :: l :: ls else (c :: l) :: ls

/-! ## Runner — work cycle (`runner.py`, `Runner.run_single_iteration`) -/

/-- `Runner.hash_comms`: SHA-256 of `COMMS.md`, or `none` when the file is
missing (`comms` is the file contents, `none` if absent).  The digest
function itself is library code (`hashlib.sha256(...).hexdigest()`); it is
kept as the parameter `hashFn`. -/
def hash_comms (hashFn : Chars → Chars) (comms : Option Chars) : Option Chars :=
  comms.map hashFn

/-- Where, if anywhere, the body of a cycle raises once the skip check has
been passed.  `raisesBeforeRequest` covers `load_system_prompt` and client
errors before the HTTP call is issued; `raisesAfterRequest` covers the
request itself and the tool sub-loop. -/
inductive BodyOutcome where
  | ok
  | raisesBeforeRequest (kind msg : String)
  | raisesAfterRequest (kind msg : String)
deriving DecidableEq

/-- The environment one call of `run_single_iteration` observes:
`commsStart` is the contents of `COMMS.md` when step 2 hashes it (after
the pull), `commsEnd` its contents when the final `hash_comms()` at the
end of the body runs (tool calls may have rewritten the file in between),
`pullRaises` an exception escaping `pull_latest`, and `body` the fate of
the rest of the cycle. -/
structure CycleEnv where
  commsStart : Option Chars
  commsEnd : Option Chars
  pullRaises : Option (String × String)
  body : BodyOutcome
deriving DecidableEq

/-- Observable outcome of one `run_single_iteration` call:
the value of `_last_comms_hash` afterwards, whether the skip branch was
taken (log "COMMS.md unchanged" and return), whether an LLM HTTP request
was issued, and the exception escaping the call, if any. -/
structure IterResult where
  last_comms : Option Chars
  skipped : Bool
  httpRequest : Bool
  exc : Option (String × String)
deriving DecidableEq

/-- `Runner.run_single_iteration`, straight-line translation:
pull (may raise), `comms_hash = hash_comms()`, skip when
`comms_hash == self._last_comms_hash` (Python `==`: two `None`s compare
equal), otherwise run the body and finally re-assign
`self._last_comms_hash = self.hash_comms()` — a fresh hash of the file as
it stands at cycle end.  An escaping exception leaves the attribute
untouched. -/
def run_single_iteration (hashFn : Chars → Chars) (env : CycleEnv)
    (last : Option Chars) : IterResult :=
  match env.pullRaises with
  | some e => ⟨last, false, false, some e⟩
  | none =>
    let h := hash_comms hashFn env.commsStart
    if h = last then
      ⟨last, true, false, none⟩
    else
      match env.body with
      | .raisesBeforeRequest k m => ⟨last, false, false, some (k, m)⟩
      | .raisesAfterRequest k m => ⟨last, false, true, some (k, m)⟩
      | .ok => ⟨hash_comms hashFn env.commsEnd, false, true, none⟩

/-! ## Runner — outer loop (`Runner.run`) -/

/-- What one iteration of the `while True` body in `Runner.run` does,
seen from the `try`: the body (`run_single_iteration` followed by
`sleep_until_next_interval`) completes, is interrupted by
`KeyboardInterrupt`, or raises some other exception. -/
inductive IterOutcome where
  | ok
  | kbInterrupt
  | err (kind msg : String)
deriving DecidableEq

/-- Actions of the outer loop, in program order. -/
inductive RunAction where
  | iter
  | sleepBoundary
  | logShutdown
  | logLoopError (kind msg : String)
  | sleepRetry (seconds : Nat)
deriving DecidableEq

/-- `Runner.run`: the `while True: try: run_single_iteration();
sleep_until_next_interval() except KeyboardInterrupt: break
except Exception: log; time.sleep(RETRY_DELAY_SECONDS)` loop, traced over
a finite list of per-iteration outcomes (the trace stops when the
outcomes are exhausted).  `RETRY_DELAY_SECONDS = 60`. -/
def run_trace : List IterOutcome → List RunAction
  | [] => []
  | .ok :: rest => .iter :: .sleepBoundary :: run_trace rest
  | .kbInterrupt :: _ => [.iter, .logShutdown]
  | .err k m :: rest => .iter :: .logLoopError k m :: .sleepRetry 60 :: run_trace rest

/-! ## Runner — scheduling (`Runner.calculate_sleep_seconds`) -/

/-- `Runner.calculate_sleep_seconds`, over timestamps in microseconds of
local time (`τ` is the first `datetime.now()`, `τ2` the second one in the
final subtraction; the result is in microseconds, a faithful rescaling of
the float seconds the source returns).  `now.minute` is
`τ / 60000000 % 60`; `now.replace(second=0, microsecond=0)` floors to the
minute; `max 0` is the `max(0, ...)` clamp. -/
def calculate_sleep_us (W τ τ2 : Nat) : Int :=
  let M := τ / 60000000 % 60
  let minutes_to_next := W - M % W
  let minutes_to_next := if minutes_to_next = 0 then W else minutes_to_next
  let next_time := (τ / 60000000) * 60000000 + minutes_to_next * 60000000
  max 0 ((next_time : Int) - (τ2 : Int))

/-! ## Watcher (`watcher.py`) -/

/-- `CRASH_WINDOW_SECONDS = 60 * 60`. -/
def CRASH_WINDOW_SECONDS : Int := 60 * 60

/-- `CRASH_LIMIT = 5`. -/
def CRASH_LIMIT : Nat := 5

/-- `Watcher.record_crash`: append `now`, evict entries not strictly
newer than `now - CRASH_WINDOW_SECONDS`, return the new list and whether
`len(crash_times) >= CRASH_LIMIT`.  Timestamps are seconds as `Int`. -/
def record_crash (now : Int) (crash_times : List Int) : List Int × Bool :=
  let times := crash_times ++ [now]
  let cutoff := now - CRASH_WINDOW_SECONDS
  let kept := times.filter (fun t => cutoff < t)
  (kept, CRASH_LIMIT ≤ kept.length)

/-- The filesystem and process facts one Watcher tick observes: the tick
time, whether a Runner process was found, the mtime of the
`logs/bootstrapping` marker file (`none` if absent), and the health-check
verdict when a Runner is present (`some reason` means unhealthy). -/
structure TickEnv where
  now : Int
  runnerPresent : Bool
  markerMtime : Option Int
  healthError : Option String
deriving DecidableEq

/-- Observable effects of one `Watcher.monitor_iteration` tick. -/
structure TickResult where
  crash_times : List Int
  crashRecorded : Bool
  launched : Bool
  alerted : Bool
deriving DecidableEq

/-- `Watcher.handle_crash_and_restart`: record the crash; at the limit,
alert the PM and do not restart; otherwise launch the runner. -/
def handle_crash_and_restart (now : Int) (crash_times : List Int) : TickResult :=
  let (times, limit) := record_crash now crash_times
  if limit then ⟨times, true, false, true⟩ else ⟨times, true, true, false⟩

/-- `Watcher.monitor_iteration`: find the runner; if absent,
`handle_missing_runner` (which only logs the bootstrap-success check and
then always falls through to `handle_crash_and_restart` — the
`markerMtime` field of the environment is never consulted); if present
and unhealthy, terminate and `handle_crash_and_restart`; otherwise do
nothing. -/
def monitor_iteration (env : TickEnv) (crash_times : List Int) : TickResult :=
  if env.runnerPresent then
    match env.healthError with
    | none => ⟨crash_times, false, false, false⟩
    | some _ => handle_crash_and_restart env.now crash_times
  else
    handle_crash_and_restart env.now crash_times

/-! ## Watcher — bootstrap log (`Watcher.check_bootstrap_success`) -/

/-- The `for i, line in enumerate(lines)` loop of
`Watcher.find_last_bootstrap_index`, with the running index and
accumulator explicit. -/
def find_last_bootstrap_aux : Nat → Int → List Chars → Int
  | _, acc, [] => acc
  | i, acc, l :: ls =>
    find_last_bootstrap_aux (i + 1)
      (if charsStartWith l "BOOTSTRAPPING".data then (i : Int) else acc) ls

/-- `Watcher.find_last_bootstrap_index`: index of the last line starting
with `BOOTSTRAPPING`, `-1` if none. -/
def find_last_bootstrap_index (lines : List Chars) : Int :=
  find_last_bootstrap_aux 0 (-1) lines

/-- `Watcher.has_success_after`: some line strictly after `start_idx`
starts with `SUCCESS`. -/
def has_success_after (lines : List Chars) (start_idx : Int) : Bool :=
  (lines.drop (start_idx + 1).toNat).any (fun l => charsStartWith l "SUCCESS".data)

/-- `Watcher.check_bootstrap_success`: `file` is the contents of
`logs/bootstrap.log`, `none` when the file is missing.  Mirrors
`read_text().strip().split("\n")`, the (dead, since `split` never yields
an empty list) `if not lines` guard, the `-1` check, and
`has_success_after`. -/
def check_bootstrap_success (file : Option Chars) : Bool :=
  match file with
  | none => false
  | some content =>
    let lines := splitNl (pyStrip content)
    if lines = [] then false
    else
      let idx := find_last_bootstrap_index lines
      if idx = -1 then false
      else has_success_after lines idx

/-! ## Tool dispatcher (`tools.py`, `execute_tool`) -/

/-- Tool arguments: the parsed JSON object, modelled as its key/value
pairs (values as strings; only the `path` key is ever read by the code
under verification). -/
abbrev Args := List (String × String)

/-- What a handler invocation does: return a value synchronously, return
a coroutine that `asyncio.run` resolves to a value, or raise.  `none`
models Python `None` (the two non-returning upgrade tools). -/
inductive HandlerResult where
  | sync (r : Option String)
  | async (r : Option String)
  | raises (kind msg : String)
deriving DecidableEq

/-- The tool registry `mcp._tool_manager._tools`: name to handler. -/
abbrev Registry := List (String × (Args → HandlerResult))

/-- `execute_tool`: unknown name raises `ValueError("Unknown tool: ...")`;
a coroutine result is awaited via `asyncio.run`; a `None` result maps to
the sentinel `"Tool executed successfully"`; otherwise the handler's
string is returned.  `Except.error` carries a raised exception as
(kind, message). -/
def execute_tool (reg : Registry) (name : String) (args : Args) :
    Except (String × String) String :=
  match reg.lookup name with
  | none => .error ("ValueError", "Unknown tool: " ++ name)
  | some fn =>
    match fn args with
    | .raises k m => .error (k, m)
    | .sync none => .ok "Tool executed successfully"
    | .async none => .ok "Tool executed successfully"
    | .sync (some s) => .ok s
    | .async (some s) => .ok s

/-! ## Runner — tool-call sub-loop (`Runner.execute_tool_call`,
`Runner.process_tool_calls`) -/

/-- One tool call from a model response, with its JSON arguments already
parsed (`json.loads` runs outside the `try` in the source). -/
structure ToolCall where
  id : String
  name : String
  args : Args
deriving DecidableEq

/-- A conversation entry as the source appends them: the assistant
message dict from `model_dump()` or a `role=tool` result dict. -/
inductive Message where
  | assistant (content : String) (toolCalls : List ToolCall)
  | tool (tool_call_id content : String)
deriving DecidableEq

/-- A model response message: content plus its tool calls. -/
structure LlmMsg where
  content : String
  toolCalls : List ToolCall
deriving DecidableEq

/-- `Runner.execute_tool_call`: run the dispatcher inside `try`;
`except IsADirectoryError` rewrites the content into the `ls` hint built
from `tool_args.get('path', '')`; `except Exception` captures
`"Error: <Kind>: <message>"`.  Always returns the
`tool_call_id / role=tool / content` dict. -/
def execute_tool_call (reg : Registry) (tc : ToolCall) : Message :=
  let content :=
    match execute_tool reg tc.name tc.args with
    | .ok c => c
    | .error (k, m) =>
      if k = "IsADirectoryError" then
        let path := (tc.args.lookup "path").getD ""
        "Error: \x27" ++ path ++ "\x27 is a directory, not a file. " ++
          "Use bash(\x27ls " ++ path ++ "\x27) to list its contents."
      else
        "Error: " ++ k ++ ": " ++ m
  .tool tc.id content

/-- The `while True` follow-up loop of `Runner.process_tool_calls`: each
round issues one chat-completion request and receives the next message
from `followUps`; a response without tool calls breaks, otherwise its
calls are executed and appended.  Returns the final conversation and the
number of requests issued (the trace stops if `followUps` is
exhausted). -/
def tool_call_loop (reg : Registry) (followUps : List LlmMsg)
    (messages : List Message) : List Message × Nat :=
  match followUps with
  | [] => (messages, 0)
  | fu :: rest =>
    if fu.toolCalls.isEmpty then
      (messages, 1)
    else
      let results := fu.toolCalls.map (execute_tool_call reg)
      let next := tool_call_loop reg rest
        (messages ++ [.assistant fu.content fu.toolCalls] ++ results)
      (next.1, next.2 + 1)

/-- `Runner.process_tool_calls`: execute the initial calls, append the
assistant message and all results, then enter the follow-up loop. -/
def process_tool_calls (reg : Registry) (msg : LlmMsg)
    (followUps : List LlmMsg) (messages : List Message) :
    List Message × Nat :=
  let results := msg.toolCalls.map (execute_tool_call reg)
  tool_call_loop reg followUps
    (messages ++ [.assistant msg.content msg.toolCalls] ++ results)

/-! ## Contracts (`contracts.py`) -/

/-- A file in the `contracts/` directory: name and text (as lines,
i.e. the text split at newlines). -/
structure MdFile where
  name : Chars
  text : List Chars
deriving DecidableEq

/-- Python `re.search(r"^pending\s*$", text, re.MULTILINE)` on the line
decomposition of the text: some line is `pending` followed only by
whitespace. -/
def is_pending (text : List Chars) : Bool :=
  text.any (fun l => charsStartWith l "pending".data && (l.drop 7).all pySpace)

/-- Lexicographic comparison of code-point lists: the order `sorted` uses
on the paths of a single directory (they share the directory prefix, so
it is filename order). -/
def charsLe (a b : Chars) : Bool :=
  match a, b with
  | [], _ => true
  | _ :: _, [] => false
  | x :: xs, y :: ys => if x = y then charsLe xs ys else decide (x < y)

/-- Python `s.endswith(suffix)` on the `List Char` model. -/
def charsEndWith (s suffix : Chars) : Bool :=
  charsStartWith s.reverse suffix.reverse

/-- `Contracts._find_pending`: `dir` is the directory listing (`none`
when `contracts/` does not exist); `glob("*.md")` keeps the `.md` names,
`sorted` orders them by name, and the `_is_pending` filter keeps files
with a pending line. -/
def find_pending (dir : Option (List MdFile)) : List MdFile :=
  match dir with
  | none => []
  | some files =>
    ((files.filter (fun f => charsEndWith f.name ".md".data)).insertionSort
        (fun a b => charsLe a.name b.name = true)).filter
      (fun f => is_pending f.text)

/-- `Contracts.execute_all` / `Contracts.execute`: each pending contract
is awaited to completion in turn (`results.append(await self.execute(path))`);
`succeeds` tells whether `run_agent` returns normally for a given
contract, in which case — and only then — the file is renamed into
`contracts_completed/`.  Returns the executed contracts in execution
order, each with the name of the file it was moved to (`none` when the
contract failed and the file stays put). -/
def execute_all (dir : Option (List MdFile)) (succeeds : Chars → Bool) :
    List (Chars × Option Chars) :=
  (find_pending dir).map
    (fun f => (f.name, if succeeds f.name then some f.name else none))

/-! ## Theorems -/

/-- Claim C1, counterexample: the spec says a cycle is skipped iff the
hash of `COMMS.md` equals `last_comms_hash` AND `last_comms_hash` is not
absent ("absent does not equal absent").  At the concrete input where
`COMMS.md` is missing and `_last_comms_hash` is `None`, the code skips
(Python `None == None` is true), so the claimed equivalence is false. -/
theorem runner_skip_claim_cex :
    ¬ (((run_single_iteration id ⟨none, none, none, .ok⟩ none).skipped = true) ↔
      (hash_comms id none = (none : Option Chars) ∧ (none : Option Chars) ≠ none)) := by
  decide

/-- Claim C1, amended: a Runner cycle whose pull completes is skipped
(logged "unchanged", no LLM HTTP request, state untouched) if and only if
the hash of `COMMS.md` (absent when the file is missing) equals
`last_comms_hash` — where absent equals absent; in particular two
consecutive cycles with `COMMS.md` missing and `last_comms_hash` absent
are both skipped. -/
theorem runner_skip_iff (hashFn : Chars → Chars) (env : CycleEnv)
    (last : Option Chars) (hpull : env.pullRaises = none) :
    ((run_single_iteration hashFn env last).skipped = true ↔
      hash_comms hashFn env.commsStart = last) ∧
    ((run_single_iteration hashFn env last).skipped = true →
      (run_single_iteration hashFn env last).httpRequest = false ∧
      (run_single_iteration hashFn env last).last_comms = last) := by
  obtain ⟨cs, ce, pr, body⟩ := env
  simp only at hpull
  subst hpull
  simp only [run_single_iteration]
  by_cases h : hash_comms hashFn cs = last
  · simp [h]
  · simp only [if_neg h]
    cases body <;> simp [h]

/-- Witness for `runner_skip_iff`: with the identity digest, contents
`['a']` on both reads and `last_comms_hash = some ['a']`, the cycle is
skipped and no HTTP request is issued. -/
theorem runner_skip_iff_witness :
    (run_single_iteration id ⟨some ['a'], some ['a'], none, .ok⟩
        (some ['a'])).skipped = true ∧
    (run_single_iteration id ⟨some ['a'], some ['a'], none, .ok⟩
        (some ['a'])).httpRequest = false := by
  have h := runner_skip_iff id ⟨some ['a'], some ['a'], none, .ok⟩
    (some ['a']) rfl
  have hs := h.1.mpr (by decide)
  exact ⟨hs, (h.2 hs).1⟩

/-- Claim C4, counterexample: the spec says the value recorded into
`last_comms_hash` at cycle end is `h`, the hash computed at the start of
the cycle (step 2).  The code re-hashes `COMMS.md` at cycle end: with the
identity digest, contents `['a']` at the start and `['b']` at the end
(changed by a tool call during the cycle), the cycle runs to completion
yet records `some ['b'] ≠ hash(start)`. -/
theorem runner_hash_update_claim_cex :
    (run_single_iteration id ⟨some ['a'], some ['b'], none, .ok⟩ none).skipped
        = false ∧
    (run_single_iteration id ⟨some ['a'], some ['b'], none, .ok⟩ none).exc
        = none ∧
    (run_single_iteration id ⟨some ['a'], some ['b'], none, .ok⟩ none).last_comms
        ≠ hash_comms id (some ['a']) := by
  decide

/-- Claim C4, amended: `last_comms_hash` is written exactly once, by the
final assignment of the cycle body, and only when the cycle actually ran
(not when it was skipped, not when an exception escaped first); the value
recorded is the SHA-256 hash of `COMMS.md` as recomputed at cycle end —
which equals the start-of-cycle hash `h` whenever `COMMS.md` did not
change during the cycle. -/
theorem runner_hash_update (hashFn : Chars → Chars) (env : CycleEnv)
    (last : Option Chars) :
    (((run_single_iteration hashFn env last).skipped = true ∨
        (run_single_iteration hashFn env last).exc ≠ none) →
      (run_single_iteration hashFn env last).last_comms = last) ∧
    ((run_single_iteration hashFn env last).skipped = false →
      (run_single_iteration hashFn env last).exc = none →
      (run_single_iteration hashFn env last).last_comms
        = hash_comms hashFn env.commsEnd) ∧
    ((run_single_iteration hashFn env last).skipped = false →
      (run_single_iteration hashFn env last).exc = none →
      env.commsEnd = env.commsStart →
      (run_single_iteration hashFn env last).last_comms
        = hash_comms hashFn env.commsStart) := by
  obtain ⟨cs, ce, pr, body⟩ := env
  simp only [run_single_iteration]
  cases pr with
  | some e => simp
  | none =>
    by_cases h : hash_comms hashFn cs = last
    · simp [h]
    · simp only [if_neg h]
      cases body with
      | ok =>
        refine ⟨by simp, by simp, ?_⟩
        intro _ _ hce
        simp [hce]
      | raisesBeforeRequest k m => simp
      | raisesAfterRequest k m => simp

/-- Witness for `runner_hash_update`: a completed cycle (start `['a']`,
end `['b']`) records the end-of-cycle hash, and an erroring cycle leaves
the state untouched. -/
theorem runner_hash_update_witness :
    (run_single_iteration id ⟨some ['a'], some ['b'], none, .ok⟩
        none).last_comms = some ['b'] ∧
    (run_single_iteration id
        ⟨some ['a'], some ['b'], none, .raisesAfterRequest "E" "m"⟩
        none).last_comms = none := by
  constructor
  · have h := (runner_hash_update id ⟨some ['a'], some ['b'], none, .ok⟩
      none).2.1 (by decide) (by decide)
    simpa using h
  · have h := (runner_hash_update id
      ⟨some ['a'], some ['b'], none, .raisesAfterRequest "E" "m"⟩ none).1
      (Or.inr (by decide))
    simpa using h

/-- Claim C3, counterexample: the spec says that after a non-shutdown
exception the next cycle's re-entry is driven by the next aligned
boundary.  In the code the loop re-enters `run_single_iteration`
immediately after the 60 s retry sleep: in the trace of an erroring
iteration followed by a clean one, the actions before the second
iteration are exactly log-error and the 60 s retry sleep — no boundary
sleep occurs between them. -/
theorem run_loop_claim_cex :
    run_trace [.err "ValueError" "boom", .ok] =
      [.iter, .logLoopError "ValueError" "boom", .sleepRetry 60, .iter,
        .sleepBoundary] ∧
    RunAction.sleepBoundary ∉ (run_trace [.err "ValueError" "boom", .ok]).take 4 := by
  decide

/-- Claim C3, amended: any exception other than `KeyboardInterrupt`
escaping an iteration is caught at the outer level; the loop logs the
exception type and message, sleeps `RETRY_DELAY_SECONDS` (60 s), and
resumes — re-entering the next cycle immediately after the retry sleep
(the aligned-boundary sleep is skipped on the error path). -/
theorem run_loop_error_policy (k m : String) (rest : List IterOutcome) :
    run_trace (.err k m :: rest) =
      .iter :: .logLoopError k m :: .sleepRetry 60 :: run_trace rest := rfl

/-- Claim C2 (code bug): the Watcher's `handle_missing_runner` never
consults the bootstrap marker.  At a tick where no Runner is found and
the marker's mtime is 5 s old (well within any grace period), the code
records a crash and launches a Runner — the repository's own tests
(`TestHandleMissingRunnerWithBootstrap`) require it to do nothing. -/
theorem watcher_ignores_bootstrap_marker :
    (monitor_iteration ⟨1000, false, some 995, none⟩ []).crashRecorded = true ∧
    (monitor_iteration ⟨1000, false, some 995, none⟩ []).launched = true ∧
    (monitor_iteration ⟨1000, false, some 995, none⟩ []).crash_times = [1000] ∧
    (∀ mark1 mark2 : Option Int,
      monitor_iteration ⟨1000, false, mark1, none⟩ [] =
        monitor_iteration ⟨1000, false, mark2, none⟩ []) := by
  refine ⟨by decide, by decide, by decide, ?_⟩
  intro mark1 mark2
  rfl

/-- Claim C5, counterexample: the spec claims that at every Watcher tick
`crash_times` contains no timestamp older than `CRASH_WINDOW_SECONDS`.
Eviction only happens inside `record_crash`: after a crash at time 0 and
a healthy tick at time 4000, the list still holds the stale timestamp 0,
which is older than `4000 - 3600`. -/
theorem crash_window_claim_cex :
    (monitor_iteration ⟨4000, true, none, none⟩
        (monitor_iteration ⟨0, false, none, none⟩ []).crash_times).crash_times
      = [0] ∧
    (0 : Int) < 4000 - CRASH_WINDOW_SECONDS := by
  decide

/-- Helper: every timestamp surviving `record_crash` is strictly newer
than `now - CRASH_WINDOW_SECONDS`. -/
theorem record_crash_window (now : Int) (times : List Int) :
    ∀ t ∈ (record_crash now times).1, now - CRASH_WINDOW_SECONDS < t := by
  intro t ht
  simp only [record_crash, List.mem_filter, decide_eq_true_eq] at ht
  exact ht.2

/-- Claim C5, amended: at every Watcher tick that records a crash, the
resulting `crash_times` contains no timestamp older than
`CRASH_WINDOW_SECONDS` before that tick's time; eviction happens only
inside `record_crash`, so between crashes the list may retain entries
that have aged past the window. -/
theorem crash_window_after_record (env : TickEnv) (times : List Int)
    (hrec : (monitor_iteration env times).crashRecorded = true) :
    ∀ t ∈ (monitor_iteration env times).crash_times,
      env.now - CRASH_WINDOW_SECONDS < t := by
  intro t ht
  have key : t ∈ (handle_crash_and_restart env.now times).crash_times →
      env.now - CRASH_WINDOW_SECONDS < t := by
    intro hts
    have hcrash : (handle_crash_and_restart env.now times).crash_times
        = (record_crash env.now times).1 := by
      simp only [handle_crash_and_restart]
      rcases hrc : record_crash env.now times with ⟨kept, limit⟩
      cases limit <;> rfl
    rw [hcrash] at hts
    exact record_crash_window env.now times t hts
  simp only [monitor_iteration] at ht hrec
  by_cases hp : env.runnerPresent
  · simp only [hp, if_true] at ht hrec
    cases hh : env.healthError with
    | none => simp [hh] at ht hrec
    | some e =>
      simp only [hh] at ht
      exact key ht
  · simp only [hp, if_false] at ht
    exact key ht

/-- Witness for `crash_window_after_record`: a missing-runner tick at
time 0 over a stale list `[-5000]` evicts the stale entry; the surviving
timestamp 0 is within the window. -/
theorem crash_window_after_record_witness :
    (0 : Int) ∈ (monitor_iteration ⟨0, false, none, none⟩ [-5000]).crash_times ∧
    (0 : Int) - CRASH_WINDOW_SECONDS < 0 := by
  refine ⟨by decide, ?_⟩
  exact crash_window_after_record ⟨0, false, none, none⟩ [-5000] (by decide)
    0 (by decide)

/-- Helper: the follow-up loop only ever appends to the conversation. -/
theorem tool_call_loop_extends (reg : Registry) (fus : List LlmMsg)
    (messages : List Message) :
    ∃ suffix, (tool_call_loop reg fus messages).1 = messages ++ suffix := by
  induction fus generalizing messages with
  | nil => exact ⟨[], by simp [tool_call_loop]⟩
  | cons fu rest ih =>
    simp only [tool_call_loop]
    by_cases he : fu.toolCalls.isEmpty = true
    · exact ⟨[], by simp [he]⟩
    · simp only [he, if_false]
      obtain ⟨s, hs⟩ := ih (messages ++ [.assistant fu.content fu.toolCalls]
        ++ fu.toolCalls.map (execute_tool_call reg))
      refine ⟨[Message.assistant fu.content fu.toolCalls]
        ++ fu.toolCalls.map (execute_tool_call reg) ++ s, ?_⟩
      simpa [List.append_assoc] using hs

/-- Helper: once the loop is entered with at least one response
available, at least one chat-completion request is issued. -/
theorem tool_call_loop_requests (reg : Registry) (fu : LlmMsg)
    (rest : List LlmMsg) (messages : List Message) :
    1 ≤ (tool_call_loop reg (fu :: rest) messages).2 := by
  simp only [tool_call_loop]
  by_cases he : fu.toolCalls.isEmpty = true
  · simp [he]
  · simp only [he, if_false]
    exact Nat.le_add_left 1 _

/-- Claim C6: when the dispatcher raises for a tool call, the result
content is the human `ls` hint for `IsADirectoryError` (built from the
`path` argument) and `"Error: <Kind>: <message>"` for every other
exception; the error is not fatal — the `role=tool` result message with
the call's id lands in the conversation and the Runner issues at least
one follow-up chat-completion instead of aborting the cycle. -/
theorem tool_error_nonfatal (reg : Registry) (tc : ToolCall)
    (fn : Args → HandlerResult) (k m : String)
    (hreg : reg.lookup tc.name = some fn)
    (hraise : fn tc.args = .raises k m) :
    (k = "IsADirectoryError" →
      execute_tool_call reg tc = .tool tc.id
        ("Error: \x27" ++ ((tc.args.lookup "path").getD "") ++
          "\x27 is a directory, not a file. " ++ "Use bash(\x27ls " ++
          ((tc.args.lookup "path").getD "") ++
          "\x27) to list its contents.")) ∧
    (k ≠ "IsADirectoryError" →
      execute_tool_call reg tc = .tool tc.id ("Error: " ++ k ++ ": " ++ m)) ∧
    (∀ c0 fu rest messages,
      execute_tool_call reg tc ∈
        (process_tool_calls reg ⟨c0, [tc]⟩ (fu :: rest) messages).1 ∧
      1 ≤ (process_tool_calls reg ⟨c0, [tc]⟩ (fu :: rest) messages).2) := by
  have hexec : execute_tool reg tc.name tc.args = .error (k, m) := by
    simp [execute_tool, hreg, hraise]
  refine ⟨?_, ?_, ?_⟩
  · intro hk
    simp [execute_tool_call, hexec, hk]
  · intro hk
    simp [execute_tool_call, hexec, hk]
  · intro c0 fu rest messages
    simp only [process_tool_calls, List.map_cons, List.map_nil]
    constructor
    · obtain ⟨s, hs⟩ := tool_call_loop_extends reg (fu :: rest)
        (messages ++ [.assistant c0 [tc]] ++ [execute_tool_call reg tc])
      rw [hs]
      simp
    · exact tool_call_loop_requests reg fu rest _

/-- Witness for `tool_error_nonfatal`: a registered handler that raises
`RuntimeError("bad")` yields the generic error content, the result is in
the final conversation, and a follow-up request is issued. -/
theorem tool_error_nonfatal_witness :
    execute_tool_call
        [("boom", fun _ => HandlerResult.raises "RuntimeError" "bad")]
        ⟨"call_1", "boom", []⟩
      = .tool "call_1" ("Error: " ++ "RuntimeError" ++ ": " ++ "bad") ∧
    execute_tool_call
        [("boom", fun _ => HandlerResult.raises "RuntimeError" "bad")]
        ⟨"call_1", "boom", []⟩ ∈
      (process_tool_calls
        [("boom", fun _ => HandlerResult.raises "RuntimeError" "bad")]
        ⟨"hi", [⟨"call_1", "boom", []⟩]⟩ [⟨"done", []⟩] []).1 ∧
    1 ≤ (process_tool_calls
        [("boom", fun _ => HandlerResult.raises "RuntimeError" "bad")]
        ⟨"hi", [⟨"call_1", "boom", []⟩]⟩ [⟨"done", []⟩] []).2 := by
  have h := tool_error_nonfatal
    [("boom", fun _ => HandlerResult.raises "RuntimeError" "bad")]
    ⟨"call_1", "boom", []⟩ (fun _ => HandlerResult.raises "RuntimeError" "bad")
    "RuntimeError" "bad" rfl rfl
  exact ⟨h.2.1 (by decide), (h.2.2 "hi" ⟨"done", []⟩ [] []).1,
    (h.2.2 "hi" ⟨"done", []⟩ [] []).2⟩

/-- Claim C7: the dispatcher `execute_tool` raises
`ValueError("Unknown tool: <name>")` for any name outside the registry;
a handler invocation returning Python `None` (synchronously or from an
awaited coroutine) maps to the sentinel `"Tool executed successfully"`;
an async handler is awaited so its string result is returned
synchronously, exactly like a sync handler's; a raising handler's
exception propagates. -/
theorem execute_tool_spec (reg : Registry) (name : String) (args : Args) :
    (reg.lookup name = none →
      execute_tool reg name args
        = .error ("ValueError", "Unknown tool: " ++ name)) ∧
    (∀ fn, reg.lookup name = some fn →
      (((fn args = .sync none ∨ fn args = .async none) →
        execute_tool reg name args = .ok "Tool executed successfully") ∧
      (∀ s, (fn args = .sync (some s) ∨ fn args = .async (some s)) →
        execute_tool reg name args = .ok s) ∧
      (∀ k m, fn args = .raises k m →
        execute_tool reg name args = .error (k, m)))) := by
  constructor
  · intro h
    simp [execute_tool, h]
  · intro fn h
    refine ⟨?_, ?_, ?_⟩
    · rintro (hr | hr) <;> simp [execute_tool, h, hr]
    · rintro s (hr | hr) <;> simp [execute_tool, h, hr]
    · intro k m hr
      simp [execute_tool, h, hr]

/-- Witness for `execute_tool_spec`: the empty registry rejects `nope`;
an async `None`-returning handler yields the sentinel; an async handler
returning `"res"` yields `"res"`. -/
theorem execute_tool_spec_witness :
    execute_tool [] "nope" []
      = .error ("ValueError", "Unknown tool: " ++ "nope") ∧
    execute_tool [("t", fun _ => HandlerResult.async none)] "t" []
      = .ok "Tool executed successfully" ∧
    execute_tool [("t", fun _ => HandlerResult.async (some "res"))] "t" []
      = .ok "res" :=
  ⟨(execute_tool_spec [] "nope" []).1 rfl,
    (((execute_tool_spec [("t", fun _ => HandlerResult.async none)] "t" []).2
      _ rfl).1 (Or.inr rfl)),
    (((execute_tool_spec [("t", fun _ => HandlerResult.async (some "res"))]
      "t" []).2 _ rfl).2.1 "res" (Or.inr rfl))⟩

/-- Claim C8: with work interval `W > 0` and current local time `τ`
(microseconds; minute-of-hour `M = τ / 60000000 % 60`), the computed
target is the instant at minute index `τ / 60000000 + (W - M % W)` with
seconds and lower units zeroed (a full period ahead when already
aligned), and the sleep is the time from the second clock reading `τ2`
until that instant, clamped at 0 and never negative. -/
theorem calculate_sleep_spec (W τ τ2 : Nat) (hW : 0 < W) :
    calculate_sleep_us W τ τ2 =
      max 0 ((((τ / 60000000 + (W - τ / 60000000 % 60 % W))
        * 60000000 : Nat) : Int) - (τ2 : Int)) ∧
    ((τ / 60000000 + (W - τ / 60000000 % 60 % W)) * 60000000) % 60000000
      = 0 ∧
    ((τ / 60000000 + (W - τ / 60000000 % 60 % W)) * 60000000) / 60000000
      = τ / 60000000 + (W - τ / 60000000 % 60 % W) ∧
    (τ / 60000000 % 60 % W = 0 → W - τ / 60000000 % 60 % W = W) ∧
    0 ≤ calculate_sleep_us W τ τ2 := by
  have hM : τ / 60000000 % 60 % W < W := Nat.mod_lt _ hW
  have hne : ¬ (W - τ / 60000000 % 60 % W = 0) := by omega
  have hmul : τ / 60000000 * 60000000
        + (W - τ / 60000000 % 60 % W) * 60000000
      = (τ / 60000000 + (W - τ / 60000000 % 60 % W)) * 60000000 := by
    ring
  simp only [calculate_sleep_us]
  rw [if_neg hne, hmul]
  exact ⟨rfl, by omega, by omega,
    fun h => by rw [h]; exact Nat.sub_zero W, le_max_left 0 _⟩

/-- Witness for `calculate_sleep_spec`: with `work_interval = 10` and
both clock readings at local time 10:03:00.000 (modelled as 36180000000
microseconds past midnight), the computed sleep is exactly 420 s. -/
theorem calculate_sleep_spec_witness :
    calculate_sleep_us 10 36180000000 36180000000 = 420000000 ∧
    0 ≤ calculate_sleep_us 10 36180000000 36180000000 :=
  ⟨by decide,
    (calculate_sleep_spec 10 36180000000 36180000000 (by decide)).2.2.2.2⟩

/-- Helper: splitting never yields the empty list (Python
`"".split("\n") == [""]`), so the `if not lines` guard is dead. -/
theorem splitNl_ne_nil (s : Chars) : splitNl s ≠ [] := by
  cases s with
  | nil => simp [splitNl]
  | cons c cs =>
    simp only [splitNl]
    rcases h : splitNl cs with _ | ⟨l, ls⟩
    · simp
    · by_cases hc : c = '\n' <;> simp [hc]

/-- Helper: when no line starts with `BOOTSTRAPPING`, the index loop
returns its accumulator unchanged. -/
theorem find_last_aux_of_none (ls : List Chars) :
    ∀ (i : Nat) (acc : Int),
    (∀ l ∈ ls, charsStartWith l "BOOTSTRAPPING".data = false) →
    find_last_bootstrap_aux i acc ls = acc := by
  induction ls with
  | nil => intro i acc _; rfl
  | cons l ls ih =>
    intro i acc h
    have hl : charsStartWith l "BOOTSTRAPPING".data = false := h l (by simp)
    simp only [find_last_bootstrap_aux, hl]
    simpa using ih (i + 1) acc (fun x hx => h x (by simp [hx]))

/-- Helper: when some line starts with `BOOTSTRAPPING`, the index loop
returns `i + k` where `k` is the last such position. -/
theorem find_last_aux_of_some (ls : List Chars) :
    ∀ (i : Nat) (acc : Int),
    (∃ l ∈ ls, charsStartWith l "BOOTSTRAPPING".data = true) →
    ∃ k : Nat, k < ls.length ∧
      find_last_bootstrap_aux i acc ls = ((i + k : Nat) : Int) ∧
      charsStartWith (ls.getD k []) "BOOTSTRAPPING".data = true ∧
      ∀ m : Nat, k < m → m < ls.length →
        charsStartWith (ls.getD m []) "BOOTSTRAPPING".data = false := by
  induction ls with
  | nil => intro i acc h; simp at h
  | cons l ls ih =>
    intro i acc h
    by_cases hex : ∃ x ∈ ls, charsStartWith x "BOOTSTRAPPING".data = true
    · obtain ⟨k, hk, heq, hB, hlast⟩ :=
        ih (i + 1) (if charsStartWith l "BOOTSTRAPPING".data then (i : Int)
          else acc) hex
      refine ⟨k + 1, by simpa using Nat.succ_lt_succ hk, ?_, ?_, ?_⟩
      · simp only [find_last_bootstrap_aux]
        rw [heq]
        congr 1
        omega
      · simpa [List.getD_cons_succ] using hB
      · intro m hm1 hm2
        match m, hm1 with
        | m + 1, _ =>
          simp only [List.getD_cons_succ]
          exact hlast m (by omega) (by simpa using hm2)
    · have hnone : ∀ x ∈ ls, charsStartWith x "BOOTSTRAPPING".data = false := by
        intro x hx
        by_contra hc
        exact hex ⟨x, hx, by simpa using hc⟩
      have hlB : charsStartWith l "BOOTSTRAPPING".data = true := by
        rcases h with ⟨x, hx, hxB⟩
        rcases List.mem_cons.mp hx with hx1 | hx2
        · rw [← hx1]; exact hxB
        · exact absurd (hnone x hx2) (by simp [hxB])
      refine ⟨0, by simp, ?_, by simpa using hlB, ?_⟩
      · simp only [find_last_bootstrap_aux, hlB]
        rw [if_pos trivial]
        rw [find_last_aux_of_none ls (i + 1) (i : Int) hnone]
        simp
      · intro m hm1 hm2
        match m, hm1 with
        | m + 1, _ =>
          simp only [List.getD_cons_succ]
          have hmem : ls.getD m [] ∈ ls := by
            have hlen : m < ls.length := by simpa using hm2
            rw [List.getD_eq_getElem ls [] hlen]
            exact List.getElem_mem hlen
          exact hnone _ hmem

/-- Claim C9: `check_bootstrap_success` returns `true` iff some line of
`bootstrap.log` (after `strip`, split at newlines) starting with
`SUCCESS` appears strictly after the last line starting with
`BOOTSTRAPPING`; a missing file, a log with no `BOOTSTRAPPING` line, or
no `SUCCESS` after the last `BOOTSTRAPPING` line all yield `false`. -/
theorem check_bootstrap_success_iff (file : Option Chars) :
    check_bootstrap_success file = true ↔
      ∃ content, file = some content ∧
        ∃ i : Nat, i < (splitNl (pyStrip content)).length ∧
          charsStartWith ((splitNl (pyStrip content)).getD i [])
            "BOOTSTRAPPING".data = true ∧
          (∀ k : Nat, i < k → k < (splitNl (pyStrip content)).length →
            charsStartWith ((splitNl (pyStrip content)).getD k [])
              "BOOTSTRAPPING".data = false) ∧
          ∃ j : Nat, i < j ∧ j < (splitNl (pyStrip content)).length ∧
            charsStartWith ((splitNl (pyStrip content)).getD j [])
              "SUCCESS".data = true := by
  cases file with
  | none => simp [check_bootstrap_success]
  | some content =>
    simp only [check_bootstrap_success]
    rw [if_neg (splitNl_ne_nil (pyStrip content))]
    by_cases hex : ∃ l ∈ splitNl (pyStrip content),
        charsStartWith l "BOOTSTRAPPING".data = true
    · obtain ⟨k, hk, heq, hB, hlast⟩ :=
        find_last_aux_of_some (splitNl (pyStrip content)) 0 (-1) hex
      have hidx : find_last_bootstrap_index (splitNl (pyStrip content))
          = ((k : Nat) : Int) := by
        simpa [find_last_bootstrap_index] using heq
      rw [hidx, if_neg (by omega)]
      have htonat : (((k : Nat) : Int) + 1).toNat = k + 1 := by omega
      simp only [has_success_after, htonat]
      constructor
      · intro hany
        obtain ⟨x, hxmem, hxS⟩ := List.any_eq_true.mp hany
        obtain ⟨j0, hj0, hxeq⟩ := List.mem_iff_getElem.mp hxmem
        have hj0len : k + 1 + j0 < (splitNl (pyStrip content)).length := by
          have := List.length_drop (k + 1) (splitNl (pyStrip content)) ▸ hj0
          omega
        refine ⟨content, rfl, k, hk, hB, hlast, k + 1 + j0, by omega,
          hj0len, ?_⟩
        rw [List.getD_eq_getElem _ [] hj0len]
        rw [← List.getElem_drop (splitNl (pyStrip content))]
        rw [hxeq]
        exact hxS
      · rintro ⟨c, hc, i, hi, hiB, hiLast, j, hij, hj, hjS⟩
        obtain rfl : content = c := by injection hc
        have hik : i = k := by
          rcases Nat.lt_trichotomy i k with hlt | heq2 | hgt
          · exact absurd hB (by rw [hiLast k hlt hk]; simp)
          · exact heq2
          · exact absurd hiB (by rw [hlast i hgt hi]; simp)
        subst hik
        apply List.any_eq_true.mpr
        have hj0 : j - (i + 1) < ((splitNl (pyStrip content)).drop (i + 1)).length := by
          rw [List.length_drop]
          omega
        refine ⟨((splitNl (pyStrip content)).drop (i + 1))[j - (i + 1)], by
          exact List.getElem_mem hj0, ?_⟩
        rw [List.getElem_drop (splitNl (pyStrip content))]
        have hidxeq : i + 1 + (j - (i + 1)) = j := by omega
        rw [List.getD_eq_getElem _ [] hj] at hjS
        simp only [hidxeq]
        exact hjS
    · have hnone : ∀ l ∈ splitNl (pyStrip content),
          charsStartWith l "BOOTSTRAPPING".data = false := by
        intro x hx
        by_contra hc
        exact hex ⟨x, hx, by simpa using hc⟩
      have hidx : find_last_bootstrap_index (splitNl (pyStrip content))
          = -1 :=
        find_last_aux_of_none (splitNl (pyStrip content)) 0 (-1) hnone
      rw [hidx, if_pos rfl]
      constructor
      · intro h0
        exact Bool.noConfusion h0
      · rintro ⟨c, hc, i, hi, hiB, -⟩
        obtain rfl : content = c := by injection hc
        exfalso
        have hmem : (splitNl (pyStrip content)).getD i []
            ∈ splitNl (pyStrip content) := by
          rw [List.getD_eq_getElem _ [] hi]
          exact List.getElem_mem hi
        exact absurd hiB (by rw [hnone _ hmem]; simp)

/-- Helper: `charsLe` is total. -/
theorem charsLe_total (a b : Chars) : charsLe a b = true ∨ charsLe b a = true := by
  induction a generalizing b with
  | nil => exact Or.inl rfl
  | cons x xs ih =>
    cases b with
    | nil => exact Or.inr rfl
    | cons y ys =>
      by_cases hxy : x = y
      · subst hxy
        rcases ih ys with h | h
        · left
          simp [charsLe, h]
        · right
          simp [charsLe, h]
      · have hyx : ¬ y = x := fun hc => hxy hc.symm
        rcases lt_trichotomy x y with h | h | h
        · left
          simp [charsLe, hxy, h]
        · exact absurd h hxy
        · right
          simp [charsLe, hyx, h]

/-- Helper: `charsLe` is transitive. -/
theorem charsLe_trans (a b c : Chars) (hab : charsLe a b = true)
    (hbc : charsLe b c = true) : charsLe a c = true := by
  induction a generalizing b c with
  | nil => rfl
  | cons x xs ih =>
    cases b with
    | nil => simp [charsLe] at hab
    | cons y ys =>
      cases c with
      | nil => simp [charsLe] at hbc
      | cons z zs =>
        simp only [charsLe] at hab hbc ⊢
        by_cases hxy : x = y
        · subst hxy
          rw [if_pos rfl] at hab
          by_cases hyz : x = z
          · subst hyz
            rw [if_pos rfl] at hbc
            rw [if_pos rfl]
            exact ih ys zs hab hbc
          · rw [if_neg hyz] at hbc
            rw [if_neg hyz]
            exact hbc
        · rw [if_neg hxy] at hab
          have hltxy : x < y := by simpa using hab
          by_cases hyz : y = z
          · subst hyz
            rw [if_neg hxy]
            simpa using hltxy
          · rw [if_neg hyz] at hbc
            have hltyz : y < z := by simpa using hbc
            have hltxz : x < z := lt_trans hltxy hltyz
            rw [if_neg (ne_of_lt hltxz)]
            simpa using hltxz

/-- Claim C10: `execute_all` executes exactly the `.md` files of
`contracts/` whose text has a line matching `^pending\s*$`, sequentially
in lexicographically sorted filename order (each contract awaited to
completion before the next begins — the execution list is ordered); a
contract's file is moved to `contracts_completed/` iff its execution
succeeded, and a file without a pending line is neither executed nor
moved.  `hnames` states that directory entries have distinct names. -/
theorem execute_contracts_spec (files : List MdFile) (succeeds : Chars → Bool)
    (hnames : (files.map MdFile.name).Nodup) :
    (∀ f, f ∈ find_pending (some files) ↔
      f ∈ files ∧ charsEndWith f.name ".md".data = true ∧
        is_pending f.text = true) ∧
    List.Pairwise (fun a b : Chars => charsLe a b = true)
      ((execute_all (some files) succeeds).map Prod.fst) ∧
    (execute_all (some files) succeeds).map Prod.fst
      = (find_pending (some files)).map MdFile.name ∧
    (∀ p ∈ execute_all (some files) succeeds,
      (p.2 = some p.1 ↔ succeeds p.1 = true) ∧
      (p.2 = none ↔ succeeds p.1 = false)) ∧
    (∀ f ∈ files, is_pending f.text = false →
      f.name ∉ (execute_all (some files) succeeds).map Prod.fst) := by
  haveI htot : IsTotal MdFile (fun a b => charsLe a.name b.name = true) :=
    ⟨fun a b => charsLe_total a.name b.name⟩
  haveI htrans : IsTrans MdFile (fun a b => charsLe a.name b.name = true) :=
    ⟨fun a b c => charsLe_trans a.name b.name c.name⟩
  have hmaps : (execute_all (some files) succeeds).map Prod.fst
      = (find_pending (some files)).map MdFile.name := by
    simp [execute_all, List.map_map, Function.comp]
  have hmem : ∀ f, f ∈ find_pending (some files) ↔
      f ∈ files ∧ charsEndWith f.name ".md".data = true ∧
        is_pending f.text = true := by
    intro f
    simp only [find_pending, List.mem_filter,
      (List.perm_insertionSort (fun a b : MdFile => charsLe a.name b.name = true)
        (files.filter (fun g => charsEndWith g.name ".md".data))).mem_iff]
    constructor
    · rintro ⟨⟨h1, h2⟩, h3⟩
      exact ⟨h1, h2, h3⟩
    · rintro ⟨h1, h2, h3⟩
      exact ⟨⟨h1, h2⟩, h3⟩
  refine ⟨hmem, ?_, hmaps, ?_, ?_⟩
  · rw [hmaps]
    apply List.pairwise_map.mpr
    exact List.Pairwise.sublist (List.filter_sublist _)
      (List.sorted_insertionSort _ _)
  · intro p hp
    simp only [execute_all, List.mem_map] at hp
    obtain ⟨f, hf, rfl⟩ := hp
    by_cases hs : succeeds f.name = true <;> simp [hs]
  · intro f hf hpend hin
    rw [hmaps] at hin
    obtain ⟨g, hg, hgname⟩ := List.mem_map.mp hin
    obtain ⟨hgfiles, -, hgpend⟩ := (hmem g).mp hg
    have : g = f := List.inj_on_of_nodup_map hnames hgfiles hf hgname
    rw [this] at hgpend
    rw [hgpend] at hpend
    exact Bool.noConfusion hpend

/-- Witness for `execute_contracts_spec`: in a directory holding
`b.md` (line `pending`), `a.md` (line `pending ` with trailing blank),
`c.md` (no pending line) and `d.txt` (pending but not markdown), the
pending set is exactly the first two and execution order is
`a.md` then `b.md`. -/
theorem execute_contracts_spec_witness :
    (⟨"a.md".data, ["pending ".data]⟩ : MdFile) ∈
      find_pending (some [⟨"b.md".data, ["pending".data]⟩,
        ⟨"a.md".data, ["pending ".data]⟩, ⟨"c.md".data, ["done".data]⟩,
        ⟨"d.txt".data, ["pending".data]⟩]) ∧
    (execute_all (some [⟨"b.md".data, ["pending".data]⟩,
        ⟨"a.md".data, ["pending ".data]⟩, ⟨"c.md".data, ["done".data]⟩,
        ⟨"d.txt".data, ["pending".data]⟩]) (fun _ => true)).map Prod.fst
      = ["a.md".data, "b.md".data] := by
  have h := execute_contracts_spec [⟨"b.md".data, ["pending".data]⟩,
    ⟨"a.md".data, ["pending ".data]⟩, ⟨"c.md".data, ["done".data]⟩,
    ⟨"d.txt".data, ["pending".data]⟩] (fun _ => true) (by decide)
  exact ⟨(h.1 _).mpr (by decide), by decide⟩

end Autofram
